import Mathlib

/-!
Verification of the search-and-evaluation engine of ChessPy (src/Chess.py).

The program in src/Chess.py implements, over the external python-chess
rules engine, a material evaluation function (evaluate_board), a
depth-limited minimax search with alpha-beta pruning (minimax) and a root
move-selection driver (get_ai_move).  The rules engine itself is an
external collaborator: following the specification, it is modelled here as
an abstract structure of query functions (RulesEngine).  All engine
definitions below are direct transcriptions of the Python source; they are
parametric in the rules engine, so every theorem quantifying over a
RulesEngine instance holds for every collaborator satisfying the stated
interface.

Scores are integers extended with minus and plus infinity (math.inf in the
Python source), embedded as WithBot (WithTop Int).
-/

namespace ChessPy

/-- The score lattice: integers together with the two infinities used by
the Python source (math.inf and -math.inf). -/
abbrev Score : Type := WithBot (WithTop Int)

/-- The score negative infinity, -math.inf in the source. -/
def Score.negInf : Score := ⊥

/-- The score positive infinity, math.inf in the source. -/
def Score.posInf : Score := ((⊤ : WithTop Int) : WithBot (WithTop Int))

/-- A finite score (a Python int). -/
def Score.val (n : Int) : Score := ((n : WithTop Int) : WithBot (WithTop Int))

example : Score.negInf < Score.val 3 := by decide

example : Score.val (-10) < Score.val 10 := by decide

example : max Score.negInf (Score.val 2) = Score.val 2 := by decide

example : Score.posInf = (⊤ : Score) := rfl

example : Score.negInf = (⊥ : Score) := rfl

example : min Score.posInf (Score.val 7) = Score.val 7 := by decide

/-- Negation on scores, exchanging the two infinities.  Used to express a
score "from the other perspective" when stating the spec claims about
whose side a value favours. -/
def Score.neg (s : Score) : Score :=
  WithBot.recBotCoe Score.posInf
    (fun x => WithTop.recTopCoe Score.negInf (fun n => Score.val (-n)) x) s

example : Score.neg (Score.val 10) = Score.val (-10) := rfl

example : Score.neg Score.negInf = Score.posInf := rfl

/-- The six chess piece kinds (chess.PAWN .. chess.KING). -/
inductive PieceKind : Type
  | pawn | knight | bishop | rook | queen | king
deriving DecidableEq, Repr

/-- A piece: kind together with colour; following python-chess,
color = true is White and color = false is Black. -/
structure Piece : Type where
  kind : PieceKind
  color : Bool
deriving DecidableEq, Repr

/-- PIECE_VALUES from src/Chess.py. -/
def PIECE_VALUES : PieceKind → Int
  | .pawn => 10
  | .knight => 30
  | .bishop => 30
  | .rook => 50
  | .queen => 90
  | .king => 900

/-- The external rules engine (python-chess), treated by the specification
as an opaque collaborator.  It is modelled from the spec: the core only
queries the side to move, enumerates legal moves, applies a move (the
paired undo is modelled by the explicit position stack of BState below),
reads the piece on a square, and asks the three terminal-state queries. -/
structure RulesEngine (Pos Move : Type) : Type where
  sideToMove : Pos → Bool
  legalMoves : Pos → List Move
  applyMove : Pos → Move → Pos
  pieceAt : Pos → Fin 64 → Option Piece
  isCheckmate : Pos → Bool
  isStalemate : Pos → Bool
  isInsufficientMaterial : Pos → Bool

variable {Pos Move : Type}

/-- Modelled from the spec: board.is_game_over() is a query of the
external python-chess library, absent from src/; section 4.2 of the spec
defines its role for the search as "game-over (checkmate, stalemate, or
insufficient material as reported by the rules engine)". -/
def isGameOver (R : RulesEngine Pos Move) (p : Pos) : Bool :=
  R.isCheckmate p || R.isStalemate p || R.isInsufficientMaterial p

/-- evaluate_board from src/Chess.py: checkmate is the signed sentinel
10000 (positive when White, turn = true, is to move), stalemate and
insufficient material are 0, otherwise the material sum where a piece of
colour true (White) counts negatively. -/
def evaluate_board (R : RulesEngine Pos Move) (p : Pos) : Int :=
  if R.isCheckmate p then (if R.sideToMove p then 10000 else -10000)
  else if R.isStalemate p || R.isInsufficientMaterial p then 0
  else
    (List.finRange 64).foldl
      (fun acc sq =>
        match R.pieceAt p sq with
        | none => acc
        | some pc => acc + PIECE_VALUES pc.kind * (if pc.color then -1 else 1))
      0

/-- The maximizing move loop of minimax (src/Chess.py lines 87-96): me is
max_eval, and for each move the child score e = f child alpha beta is
folded in by max_eval = max(max_eval, e), alpha = max(alpha, e), breaking
out of the loop as soon as beta <= alpha. -/
def maxLoop (R : RulesEngine Pos Move) (f : Pos → Score → Score → Score)
    (p : Pos) : List Move → Score → Score → Score → Score
  | [], me, _, _ => me
  | mv :: rest, me, a, b =>
      let e := f (R.applyMove p mv) a b
      let me' := max me e
      let a' := max a e
      if b ≤ a' then me' else maxLoop R f p rest me' a' b

/-- The minimizing move loop of minimax (src/Chess.py lines 98-107),
symmetric to maxLoop with min_eval and beta = min(beta, e). -/
def minLoop (R : RulesEngine Pos Move) (f : Pos → Score → Score → Score)
    (p : Pos) : List Move → Score → Score → Score → Score
  | [], me, _, _ => me
  | mv :: rest, me, a, b =>
      let e := f (R.applyMove p mv) a b
      let me' := min me e
      let b' := min b e
      if b' ≤ a then me' else minLoop R f p rest me' a b'

/-- minimax from src/Chess.py: at depth 0 or on a game-over position
return evaluate_board, otherwise run the maximizing or minimizing loop
over the legal moves with the running extremum seeded at -inf resp. inf.
Applying a move and popping it afterwards is rendered functionally as
recursing on R.applyMove p mv (the stateful rendering with the explicit
move stack is stMinimax below). -/
def minimax (R : RulesEngine Pos Move) :
    Nat → Pos → Score → Score → Bool → Score
  | 0, p, _, _, _ => Score.val (evaluate_board R p)
  | d + 1, p, a, b, m =>
      if isGameOver R p then Score.val (evaluate_board R p)
      else if m then
        maxLoop R (fun q x y => minimax R d q x y false) p (R.legalMoves p)
          Score.negInf a b
      else
        minLoop R (fun q x y => minimax R d q x y true) p (R.legalMoves p)
          Score.posInf a b

/-- The root driver loop of get_ai_move (src/Chess.py lines 113-119):
keep the move whose value strictly exceeds the best value seen so far. -/
def selLoop (f : Move → Score) :
    List Move → Option Move → Score → Option Move
  | [], bm, _ => bm
  | mv :: rest, bm, bv =>
      let v := f mv
      if bv < v then selLoop f rest (some mv) v else selLoop f rest bm bv

/-- get_ai_move from src/Chess.py: scan the legal moves, scoring each by
minimax at depth - 1 with the full window and maximizing = false, starting
from best_move = None and best_value = -inf. -/
def get_ai_move (R : RulesEngine Pos Move) (p : Pos) (d : Nat) :
    Option Move :=
  selLoop
    (fun mv =>
      minimax R (d - 1) (R.applyMove p mv) Score.negInf Score.posInf false)
    (R.legalMoves p) none Score.negInf

/-- Written from the words of the spec, for the refinement claim: "the
value produced by an unpruned full minimax of the same tree".  Same base
cases as the search, but every child is visited and the extremum is a
plain fold with no alpha-beta window. -/
def fullMinimax (R : RulesEngine Pos Move) : Nat → Pos → Bool → Score
  | 0, p, _ => Score.val (evaluate_board R p)
  | d + 1, p, m =>
      if isGameOver R p then Score.val (evaluate_board R p)
      else if m then
        (R.legalMoves p).foldl
          (fun acc mv => max acc (fullMinimax R d (R.applyMove p mv) false))
          Score.negInf
      else
        (R.legalMoves p).foldl
          (fun acc mv => min acc (fullMinimax R d (R.applyMove p mv) true))
          Score.posInf

/-- The mutable python-chess board: the current position together with
the stack of previous positions that board.push grows and board.pop
consumes. -/
structure BState (Pos : Type) : Type where
  pos : Pos
  stack : List Pos
deriving DecidableEq, Repr

/-- board.push(move). -/
def pushB (R : RulesEngine Pos Move) (s : BState Pos) (mv : Move) :
    BState Pos :=
  ⟨R.applyMove s.pos mv, s.pos :: s.stack⟩

/-- board.pop().  On an empty stack python-chess raises; the search never
does that (the theorems below show every pop matches a pending push), so
the empty case is mapped to the identity. -/
def popB (s : BState Pos) : BState Pos :=
  match s.stack with
  | [] => s
  | q :: rest => ⟨q, rest⟩

/-- One board mutation performed by the search. -/
inductive Op (Move : Type) : Type
  | push (mv : Move)
  | pop
deriving DecidableEq, Repr

/-- Strictly nested traces of push/pop operations: each push is closed by
the pop of the same recursion level, with a balanced trace in between. -/
inductive Nested {Move : Type} : List (Op Move) → Prop
  | nil : Nested []
  | node (mv : Move) {t s : List (Op Move)} :
      Nested t → Nested s → Nested (Op.push mv :: t ++ Op.pop :: s)

/-- Stateful rendering of the maximizing loop: every iteration pushes the
move, runs the child search f on the mutated board, pops, and records the
three steps in the emitted trace. -/
def stMaxLoop (R : RulesEngine Pos Move)
    (f : BState Pos → Score → Score → Score × BState Pos × List (Op Move)) :
    List Move → BState Pos → Score → Score → Score →
      Score × BState Pos × List (Op Move)
  | [], s, me, _, _ => (me, s, [])
  | mv :: rest, s, me, a, b =>
      let r1 := f (pushB R s mv) a b
      let s3 := popB r1.2.1
      let me' := max me r1.1
      let a' := max a r1.1
      if b ≤ a' then (me', s3, Op.push mv :: r1.2.2 ++ [Op.pop])
      else
        let r2 := stMaxLoop R f rest s3 me' a' b
        (r2.1, r2.2.1, Op.push mv :: r1.2.2 ++ Op.pop :: r2.2.2)

/-- Stateful rendering of the minimizing loop. -/
def stMinLoop (R : RulesEngine Pos Move)
    (f : BState Pos → Score → Score → Score × BState Pos × List (Op Move)) :
    List Move → BState Pos → Score → Score → Score →
      Score × BState Pos × List (Op Move)
  | [], s, me, _, _ => (me, s, [])
  | mv :: rest, s, me, a, b =>
      let r1 := f (pushB R s mv) a b
      let s3 := popB r1.2.1
      let me' := min me r1.1
      let b' := min b r1.1
      if b' ≤ a then (me', s3, Op.push mv :: r1.2.2 ++ [Op.pop])
      else
        let r2 := stMinLoop R f rest s3 me' a b'
        (r2.1, r2.2.1, Op.push mv :: r1.2.2 ++ Op.pop :: r2.2.2)

/-- minimax from src/Chess.py, state-passing rendering: the board (with
its move stack) is threaded through, and the trace of push/pop operations
is returned alongside the score. -/
def stMinimax (R : RulesEngine Pos Move) :
    Nat → BState Pos → Score → Score → Bool →
      Score × BState Pos × List (Op Move)
  | 0, s, _, _, _ => (Score.val (evaluate_board R s.pos), s, [])
  | d + 1, s, a, b, m =>
      if isGameOver R s.pos then (Score.val (evaluate_board R s.pos), s, [])
      else if m then
        stMaxLoop R (fun s1 x y => stMinimax R d s1 x y false)
          (R.legalMoves s.pos) s Score.negInf a b
      else
        stMinLoop R (fun s1 x y => stMinimax R d s1 x y true)
          (R.legalMoves s.pos) s Score.posInf a b

/-- Stateful rendering of the root driver loop of get_ai_move. -/
def stSelLoop (R : RulesEngine Pos Move)
    (f : BState Pos → Score × BState Pos × List (Op Move)) :
    List Move → BState Pos → Option Move → Score →
      Option Move × BState Pos × List (Op Move)
  | [], s, bm, _ => (bm, s, [])
  | mv :: rest, s, bm, bv =>
      let r1 := f (pushB R s mv)
      let s3 := popB r1.2.1
      let r2 :=
        if bv < r1.1 then stSelLoop R f rest s3 (some mv) r1.1
        else stSelLoop R f rest s3 bm bv
      (r2.1, r2.2.1, Op.push mv :: r1.2.2 ++ Op.pop :: r2.2.2)

/-- get_ai_move from src/Chess.py, state-passing rendering. -/
def stGetAiMove (R : RulesEngine Pos Move) (s : BState Pos) (d : Nat) :
    Option Move × BState Pos × List (Op Move) :=
  stSelLoop R
    (fun s1 => stMinimax R (d - 1) s1 Score.negInf Score.posInf false)
    (R.legalMoves s.pos) s none Score.negInf

/-- Positions of a small concrete rules engine used to instantiate the
theorems: a root with two replies, two leaf-ish children of opposite
material balance, three terminal positions, and a colour-swap triple. -/
inductive TPos : Type
  | r0 | ca | cb | m0 | s0 | i0 | p8 | p8s | p8n
deriving DecidableEq, Repr, Fintype

/-- Moves of the small concrete rules engine. -/
inductive TMove : Type
  | ma | mb
deriving DecidableEq, Repr, Fintype

open TPos TMove in
/-- A concrete rules engine.  r0 (White to move) has the two replies ma
to ca (a lone White pawn) and mb to cb (a lone Black pawn); m0 is a
checkmate, s0 a stalemate, i0 an insufficient-material draw; p8 holds a
White queen, White king and Black king, p8s and p8n hold the same pieces
with colours swapped, p8s being a checkmate while p8n is not terminal.
Every position that is not game-over has at least one legal move. -/
def Rtoy : RulesEngine TPos TMove where
  sideToMove := fun _ => true
  legalMoves := fun p =>
    match p with
    | r0 => [ma, mb]
    | ca => [ma]
    | cb => [ma]
    | p8 => [ma]
    | p8n => [ma]
    | _ => []
  applyMove := fun p mv =>
    match p, mv with
    | r0, ma => ca
    | r0, mb => cb
    | p, _ => p
  pieceAt := fun p sq =>
    match p with
    | ca => if sq = 0 then some ⟨.pawn, true⟩ else none
    | cb => if sq = 0 then some ⟨.pawn, false⟩ else none
    | p8 =>
        if sq = 0 then some ⟨.queen, true⟩
        else if sq = 1 then some ⟨.king, true⟩
        else if sq = 2 then some ⟨.king, false⟩ else none
    | p8s =>
        if sq = 0 then some ⟨.queen, false⟩
        else if sq = 1 then some ⟨.king, false⟩
        else if sq = 2 then some ⟨.king, true⟩ else none
    | p8n =>
        if sq = 0 then some ⟨.queen, false⟩
        else if sq = 1 then some ⟨.king, false⟩
        else if sq = 2 then some ⟨.king, true⟩ else none
    | _ => none
  isCheckmate := fun p => p = m0 || p = p8s
  isStalemate := fun p => p = s0
  isInsufficientMaterial := fun p => p = i0

example : evaluate_board Rtoy TPos.ca = -10 := by decide

example : evaluate_board Rtoy TPos.cb = 10 := by decide

example : evaluate_board Rtoy TPos.m0 = 10000 := by decide

example : evaluate_board Rtoy TPos.s0 = 0 := by decide

example : evaluate_board Rtoy TPos.p8 = -90 := by decide

example : evaluate_board Rtoy TPos.p8s = 10000 := by decide

example : evaluate_board Rtoy TPos.p8n = 90 := by decide

example : get_ai_move Rtoy TPos.r0 1 = some TMove.mb := by decide

example :
    ∀ q : TPos, isGameOver Rtoy q = false → Rtoy.legalMoves q ≠ [] := by
  decide

example :
    minimax Rtoy 0 TPos.ca Score.negInf Score.posInf false =
      Score.val (-10) := by decide

section Claims

variable (R : RulesEngine Pos Move)

/-- C3: for every checkmate position the evaluation is the sentinel of
magnitude exactly 10000, positive exactly when the side to move is White
(colour true) — i.e. under the fixed convention in which positive scores
favour colour false, the sentinel favours the opponent of the side to
move, a loss for the side to move. -/
theorem checkmate_sentinel (p : Pos) (h : R.isCheckmate p = true) :
    (evaluate_board R p).natAbs = 10000 ∧
      (0 < evaluate_board R p ↔ R.sideToMove p = true) ∧
      evaluate_board R p = (if R.sideToMove p then 10000 else -10000) := by
  unfold evaluate_board
  rw [h]
  cases hs : R.sideToMove p <;> simp

/-- Witness for C3 at the concrete checkmate position m0 of Rtoy. -/
theorem checkmate_sentinel_witness :
    (evaluate_board Rtoy TPos.m0).natAbs = 10000 ∧
      (0 < evaluate_board Rtoy TPos.m0 ↔ Rtoy.sideToMove TPos.m0 = true) ∧
      evaluate_board Rtoy TPos.m0 =
        (if Rtoy.sideToMove TPos.m0 then 10000 else -10000) :=
  checkmate_sentinel Rtoy TPos.m0 rfl

/-- C5: a position that is stalemate or drawn by insufficient material,
and not checkmate, evaluates to exactly 0. -/
theorem draw_evaluates_zero (p : Pos)
    (hd : R.isStalemate p = true ∨ R.isInsufficientMaterial p = true)
    (hc : R.isCheckmate p = false) :
    evaluate_board R p = 0 := by
  unfold evaluate_board
  rw [hc]
  rcases hd with h | h <;> rw [h] <;> simp

/-- Witness for C5 at the concrete stalemate position s0 of Rtoy. -/
theorem draw_evaluates_zero_witness : evaluate_board Rtoy TPos.s0 = 0 :=
  draw_evaluates_zero Rtoy TPos.s0 (Or.inl rfl) rfl

/-- Swapping the colour of a piece. -/
def swapPiece (pc : Piece) : Piece := ⟨pc.kind, !pc.color⟩

/-- The material fold of evaluate_board negates pointwise when every
square holds the colour-swapped piece. -/
theorem matFold_swap (p p' : Pos)
    (hsw : ∀ sq, R.pieceAt p' sq = (R.pieceAt p sq).map swapPiece) :
    ∀ (l : List (Fin 64)) (acc acc' : Int), acc' = -acc →
      l.foldl
        (fun acc sq =>
          match R.pieceAt p' sq with
          | none => acc
          | some pc => acc + PIECE_VALUES pc.kind * (if pc.color then -1 else 1))
        acc' =
      -(l.foldl
        (fun acc sq =>
          match R.pieceAt p sq with
          | none => acc
          | some pc => acc + PIECE_VALUES pc.kind * (if pc.color then -1 else 1))
        acc) := by
  intro l
  induction l with
  | nil => intro acc acc' h; simpa using h
  | cons sq rest ih =>
      intro acc acc' h
      simp only [List.foldl_cons]
      rcases hpc : R.pieceAt p sq with _ | pc
      · rw [hsw sq, hpc]
        exact ih acc acc' h
      · rw [hsw sq, hpc]
        simp only [Option.map_some]
        apply ih
        subst h
        cases hc : pc.color <;> simp [swapPiece, hc] <;> ring

/-- C8 (amended): if P and its pointwise colour-swap P are both
non-terminal, the evaluation is antisymmetric: evaluate(P) is the
negation of the evaluation of the swapped position. -/
theorem evaluate_board_swap (p p' : Pos)
    (hsw : ∀ sq, R.pieceAt p' sq = (R.pieceAt p sq).map swapPiece)
    (hc : R.isCheckmate p = false) (hs : R.isStalemate p = false)
    (hi : R.isInsufficientMaterial p = false)
    (hc' : R.isCheckmate p' = false) (hs' : R.isStalemate p' = false)
    (hi' : R.isInsufficientMaterial p' = false) :
    evaluate_board R p = -evaluate_board R p' := by
  unfold evaluate_board
  rw [hc, hs, hi, hc', hs', hi']
  simp only [Bool.or_self, if_false, Bool.false_eq_true]
  rw [matFold_swap R p p' hsw (List.finRange 64) 0 0 (by ring)]
  ring

/-- Witness for C8 (amended) at the concrete colour-swapped pair
p8 and p8n of Rtoy: both non-terminal, evaluations -90 and 90. -/
theorem evaluate_board_swap_witness :
    evaluate_board Rtoy TPos.p8 = -evaluate_board Rtoy TPos.p8n :=
  evaluate_board_swap Rtoy TPos.p8 TPos.p8n (by decide) rfl rfl rfl rfl rfl
    rfl

/-- Counterexample to C8 as stated: in Rtoy, p8 is non-terminal and p8s
holds exactly the colour-swapped pieces of p8 on every square, yet p8s is
checkmate, so its evaluation is the sentinel 10000 while p8 evaluates to
the material sum -90, and -90 is not equal to -10000. -/
theorem evaluate_board_swap_cex :
    (∀ sq, Rtoy.pieceAt TPos.p8s sq =
        (Rtoy.pieceAt TPos.p8 sq).map swapPiece) ∧
      Rtoy.isCheckmate TPos.p8 = false ∧ Rtoy.isStalemate TPos.p8 = false ∧
      Rtoy.isInsufficientMaterial TPos.p8 = false ∧
      evaluate_board Rtoy TPos.p8 = -90 ∧
      evaluate_board Rtoy TPos.p8s = 10000 ∧
      evaluate_board Rtoy TPos.p8 ≠ -evaluate_board Rtoy TPos.p8s := by
  decide

end Claims

theorem Score.val_le_val {a b : Int} : Score.val a ≤ Score.val b ↔ a ≤ b := by
  unfold Score.val
  rw [WithBot.coe_le_coe, WithTop.coe_le_coe]

theorem Score.max_negInf (s : Score) : max Score.negInf s = s :=
  max_eq_right bot_le

theorem Score.min_posInf (s : Score) : min Score.posInf s = s :=
  min_eq_right le_top

theorem Score.val_ne_bot (n : Int) : Score.val n ≠ (⊥ : Score) :=
  WithBot.coe_ne_bot

theorem Score.max_val (a b : Int) :
    max (Score.val a) (Score.val b) = Score.val (max a b) := by
  rcases le_total a b with h | h
  · rw [max_eq_right h, max_eq_right (Score.val_le_val.mpr h)]
  · rw [max_eq_left h, max_eq_left (Score.val_le_val.mpr h)]

theorem Score.min_val (a b : Int) :
    min (Score.val a) (Score.val b) = Score.val (min a b) := by
  rcases le_total a b with h | h
  · rw [min_eq_left h, min_eq_left (Score.val_le_val.mpr h)]
  · rw [min_eq_right h, min_eq_right (Score.val_le_val.mpr h)]

section Finiteness

variable (R : RulesEngine Pos Move)

/-- The maximizing loop started from a finite running extremum stays
finite when every child score is finite. -/
theorem maxLoop_finite (f : Pos → Score → Score → Score) (p : Pos)
    (hf : ∀ q x y, ∃ n, f q x y = Score.val n) :
    ∀ (l : List Move) (k : Int) (a b : Score),
      ∃ n, maxLoop R f p l (Score.val k) a b = Score.val n := by
  intro l
  induction l with
  | nil => intro k a b; exact ⟨k, rfl⟩
  | cons mv rest ih =>
      intro k a b
      obtain ⟨n, hn⟩ := hf (R.applyMove p mv) a b
      simp only [maxLoop, hn, Score.max_val]
      split
      · exact ⟨max k n, rfl⟩
      · exact ih (max k n) (max a (Score.val n)) b

/-- The minimizing loop started from a finite running extremum stays
finite when every child score is finite. -/
theorem minLoop_finite (f : Pos → Score → Score → Score) (p : Pos)
    (hf : ∀ q x y, ∃ n, f q x y = Score.val n) :
    ∀ (l : List Move) (k : Int) (a b : Score),
      ∃ n, minLoop R f p l (Score.val k) a b = Score.val n := by
  intro l
  induction l with
  | nil => intro k a b; exact ⟨k, rfl⟩
  | cons mv rest ih =>
      intro k a b
      obtain ⟨n, hn⟩ := hf (R.applyMove p mv) a b
      simp only [minLoop, hn, Score.min_val]
      split
      · exact ⟨min k n, rfl⟩
      · exact ih (min k n) a (min b (Score.val n))

/-- Helper for C9: when every position that is not game-over has at least
one legal move, the search value is always a finite integer. -/
theorem minimax_finite
    (Hne : ∀ q, isGameOver R q = false → R.legalMoves q ≠ []) :
    ∀ (d : Nat) (p : Pos) (a b : Score) (m : Bool),
      ∃ n : Int, minimax R d p a b m = Score.val n := by
  intro d
  induction d with
  | zero => intro p a b m; exact ⟨evaluate_board R p, rfl⟩
  | succ d ih =>
      intro p a b m
      by_cases hg : isGameOver R p = true
      · exact ⟨evaluate_board R p, by simp [minimax, hg]⟩
      · have hne := Hne p (by simpa using hg)
        rcases hl : R.legalMoves p with _ | ⟨mv, rest⟩
        · exact absurd hl hne
        · cases m
          · obtain ⟨n, hn⟩ :=
              ih (R.applyMove p mv) a b true
            simp only [minimax, hl, if_neg hg, Bool.false_eq_true, if_false,
              minLoop, hn]
            rw [Score.min_posInf]
            split
            · exact ⟨n, rfl⟩
            · exact minLoop_finite R _ p (fun q x y => ih q x y true) rest n
                a (min b (Score.val n))
          · obtain ⟨n, hn⟩ :=
              ih (R.applyMove p mv) a b false
            simp only [minimax, hl, if_neg hg, if_true, maxLoop, hn]
            rw [Score.max_negInf]
            split
            · exact ⟨n, rfl⟩
            · exact maxLoop_finite R _ p (fun q x y => ih q x y false) rest n
                (max a (Score.val n)) b

end Finiteness

/-- C9: when the rules engine gives every position that is not game-over
at least one legal move (as chess does), minimax never returns an
infinity: the running extremum seeded at -inf or inf is always replaced
by at least one finite child value, and leaves are finite evaluations. -/
theorem minimax_never_infinite (R : RulesEngine Pos Move)
    (Hne : ∀ q, isGameOver R q = false → R.legalMoves q ≠ [])
    (d : Nat) (p : Pos) (a b : Score) (m : Bool) :
    ∃ n : Int, minimax R d p a b m = Score.val n :=
  minimax_finite R Hne d p a b m

/-- Witness for C9 on the concrete engine Rtoy. -/
theorem minimax_never_infinite_witness :
    ∃ n : Int,
      minimax Rtoy 2 TPos.r0 Score.negInf Score.posInf true = Score.val n :=
  minimax_never_infinite Rtoy (by decide) 2 TPos.r0 Score.negInf
    Score.posInf true

/-- The root selection loop either keeps its incoming best move (when no
scanned value strictly beats the incoming best value) or returns the
first move attaining the strict maximum of the scanned values. -/
theorem selLoop_spec (f : Move → Score) :
    ∀ (l : List Move) (bm : Option Move) (bv : Score),
      ((∀ i : Fin l.length, f (l.get i) ≤ bv) ∧ selLoop f l bm bv = bm) ∨
        (∃ i : Fin l.length,
          selLoop f l bm bv = some (l.get i) ∧ bv < f (l.get i) ∧
            (∀ j : Fin l.length, f (l.get j) ≤ f (l.get i)) ∧
            (∀ j : Fin l.length, (j : Nat) < (i : Nat) →
              f (l.get j) < f (l.get i))) := by
  intro l
  induction l with
  | nil =>
      intro bm bv
      exact Or.inl ⟨fun i => absurd i.2 (Nat.not_lt_zero _), rfl⟩
  | cons mv rest ih =>
      intro bm bv
      simp only [selLoop]
      by_cases hlt : bv < f mv
      · rw [if_pos hlt]
        rcases ih (some mv) (f mv) with ⟨hall, heq⟩ | ⟨i, heq, hgt, hmax, hfst⟩
        · refine Or.inr ⟨⟨0, Nat.succ_pos _⟩, heq, hlt, ?_, ?_⟩
          · rintro ⟨j, hj⟩
            cases j with
            | zero => exact le_refl _
            | succ k => exact hall ⟨k, Nat.lt_of_succ_lt_succ hj⟩
          · rintro ⟨j, hj⟩ hj0
            exact absurd hj0 (Nat.not_lt_zero _)
        · refine Or.inr ⟨i.succ, heq, lt_trans hlt hgt, ?_, ?_⟩
          · rintro ⟨j, hj⟩
            cases j with
            | zero => exact le_of_lt hgt
            | succ k => exact hmax ⟨k, Nat.lt_of_succ_lt_succ hj⟩
          · rintro ⟨j, hj⟩ hji
            cases j with
            | zero => exact hgt
            | succ k =>
                exact hfst ⟨k, Nat.lt_of_succ_lt_succ hj⟩
                  (Nat.lt_of_succ_lt_succ hji)
      · rw [if_neg hlt]
        have hle : f mv ≤ bv := not_lt.mp hlt
        rcases ih bm bv with ⟨hall, heq⟩ | ⟨i, heq, hgt, hmax, hfst⟩
        · refine Or.inl ⟨?_, heq⟩
          rintro ⟨j, hj⟩
          cases j with
          | zero => exact hle
          | succ k => exact hall ⟨k, Nat.lt_of_succ_lt_succ hj⟩
        · refine Or.inr ⟨i.succ, heq, hgt, ?_, ?_⟩
          · rintro ⟨j, hj⟩
            cases j with
            | zero => exact le_of_lt (lt_of_le_of_lt hle hgt)
            | succ k => exact hmax ⟨k, Nat.lt_of_succ_lt_succ hj⟩
          · rintro ⟨j, hj⟩ hji
            cases j with
            | zero => exact lt_of_le_of_lt hle hgt
            | succ k =>
                exact hfst ⟨k, Nat.lt_of_succ_lt_succ hj⟩
                  (Nat.lt_of_succ_lt_succ hji)

/-- The value the root driver assigns to a legal move: the alpha-beta
search of the child position at depth d - 1, full window, minimizing. -/
def rootValue (R : RulesEngine Pos Move) (p : Pos) (d : Nat) (mv : Move) :
    Score :=
  minimax R (d - 1) (R.applyMove p mv) Score.negInf Score.posInf false

/-- Helper: on a position with a legal move, get_ai_move returns the
first legal move attaining the strict maximum of the root values. -/
theorem get_ai_move_argmax (R : RulesEngine Pos Move)
    (Hne : ∀ q, isGameOver R q = false → R.legalMoves q ≠ [])
    (p : Pos) (hne : R.legalMoves p ≠ []) (d : Nat) :
    ∃ i : Fin (R.legalMoves p).length,
      get_ai_move R p d = some ((R.legalMoves p).get i) ∧
        (∀ j : Fin (R.legalMoves p).length,
          rootValue R p d ((R.legalMoves p).get j) ≤
            rootValue R p d ((R.legalMoves p).get i)) ∧
        (∀ j : Fin (R.legalMoves p).length, (j : Nat) < (i : Nat) →
          rootValue R p d ((R.legalMoves p).get j) <
            rootValue R p d ((R.legalMoves p).get i)) := by
  rcases selLoop_spec (rootValue R p d) (R.legalMoves p) none Score.negInf
    with ⟨hall, _⟩ | ⟨i, heq, _, hmax, hfst⟩
  · exfalso
    have hpos : 0 < (R.legalMoves p).length :=
      List.length_pos.mpr hne
    have h0 := hall ⟨0, hpos⟩
    obtain ⟨n, hn⟩ :=
      minimax_finite R Hne (d - 1)
        (R.applyMove p ((R.legalMoves p).get ⟨0, hpos⟩)) Score.negInf
        Score.posInf false
    rw [rootValue, hn] at h0
    exact Score.val_ne_bot n (le_bot_iff.mp h0)
  · exact ⟨i, heq, hmax, hfst⟩

/-- C7: on a position with at least one legal move and depth at least 1,
get_ai_move returns a member of the legal move list, namely the first
move in enumeration order whose root value strictly exceeds every earlier
value (strict comparison resolves ties in favour of the earlier move),
and no move has a strictly greater root value. -/
theorem get_ai_move_first_strict_max (R : RulesEngine Pos Move)
    (Hne : ∀ q, isGameOver R q = false → R.legalMoves q ≠ [])
    (p : Pos) (hne : R.legalMoves p ≠ []) (d : Nat) (hd : 1 ≤ d) :
    ∃ i : Fin (R.legalMoves p).length,
      get_ai_move R p d = some ((R.legalMoves p).get i) ∧
        (R.legalMoves p).get i ∈ R.legalMoves p ∧
        (∀ j : Fin (R.legalMoves p).length,
          rootValue R p d ((R.legalMoves p).get j) ≤
            rootValue R p d ((R.legalMoves p).get i)) ∧
        (∀ j : Fin (R.legalMoves p).length, (j : Nat) < (i : Nat) →
          rootValue R p d ((R.legalMoves p).get j) <
            rootValue R p d ((R.legalMoves p).get i)) := by
  obtain ⟨i, heq, hmax, hfst⟩ := get_ai_move_argmax R Hne p hne d
  exact ⟨i, heq, List.get_mem _ _ _, hmax, hfst⟩

/-- Witness for C7 on the concrete engine Rtoy at position r0, depth 1. -/
theorem get_ai_move_first_strict_max_witness :
    ∃ i : Fin (Rtoy.legalMoves TPos.r0).length,
      get_ai_move Rtoy TPos.r0 1 = some ((Rtoy.legalMoves TPos.r0).get i) ∧
        (Rtoy.legalMoves TPos.r0).get i ∈ Rtoy.legalMoves TPos.r0 ∧
        (∀ j : Fin (Rtoy.legalMoves TPos.r0).length,
          rootValue Rtoy TPos.r0 1 ((Rtoy.legalMoves TPos.r0).get j) ≤
            rootValue Rtoy TPos.r0 1 ((Rtoy.legalMoves TPos.r0).get i)) ∧
        (∀ j : Fin (Rtoy.legalMoves TPos.r0).length, (j : Nat) < (i : Nat) →
          rootValue Rtoy TPos.r0 1 ((Rtoy.legalMoves TPos.r0).get j) <
            rootValue Rtoy TPos.r0 1 ((Rtoy.legalMoves TPos.r0).get i)) :=
  get_ai_move_first_strict_max Rtoy (by decide) TPos.r0 (by decide) 1
    (by decide)

/-- C10: called on a position with no legal moves, get_ai_move performs
no push or pop, leaves the board unchanged, and returns None. -/
theorem get_ai_move_no_moves (R : RulesEngine Pos Move) (s : BState Pos)
    (d : Nat) (h : R.legalMoves s.pos = []) :
    stGetAiMove R s d = (none, s, []) ∧ get_ai_move R s.pos d = none := by
  unfold stGetAiMove get_ai_move
  rw [h]
  exact ⟨rfl, rfl⟩

/-- Witness for C10 on the concrete game-over position m0 of Rtoy. -/
theorem get_ai_move_no_moves_witness :
    stGetAiMove Rtoy ⟨TPos.m0, []⟩ 3 = (none, ⟨TPos.m0, []⟩, []) ∧
      get_ai_move Rtoy TPos.m0 3 = none :=
  get_ai_move_no_moves Rtoy ⟨TPos.m0, []⟩ 3 rfl

section AlphaBeta

variable (R : RulesEngine Pos Move)

/-- A fold of max only grows its accumulator. -/
theorem foldl_max_le (g : Move → Score) :
    ∀ (l : List Move) (a : Score),
      a ≤ l.foldl (fun w mv => max w (g mv)) a := by
  intro l
  induction l with
  | nil => intro a; exact le_refl a
  | cons mv rest ih =>
      intro a
      exact le_trans (le_max_left a (g mv)) (ih (max a (g mv)))

/-- A fold of min only shrinks its accumulator. -/
theorem foldl_min_le (g : Move → Score) :
    ∀ (l : List Move) (a : Score),
      l.foldl (fun w mv => min w (g mv)) a ≤ a := by
  intro l
  induction l with
  | nil => intro a; exact le_refl a
  | cons mv rest ih =>
      intro a
      exact le_trans (ih (min a (g mv))) (min_le_left a (g mv))

/-- Knuth-Moore style invariant for the maximizing loop: clamped to the
window of the node, the pruned loop agrees with the unpruned fold,
provided each child search agrees with its unpruned value clamped to the
child window.  The running alpha of the loop is max of the entry alpha
and the running extremum, and the two accumulators agree under max with
the entry alpha. -/
theorem maxLoop_clamp (f : Pos → Score → Score → Score) (v : Pos → Score)
    (p : Pos) (a0 b : Score)
    (hf : ∀ q x, x < b → max x (min b (f q x b)) = max x (min b (v q))) :
    ∀ (l : List Move) (me acc al : Score),
      al = max a0 me → max a0 me = max a0 acc → al < b →
      max a0 (min b (maxLoop R f p l me al b)) =
        max a0 (min b
          (l.foldl (fun w mv => max w (v (R.applyMove p mv))) acc)) := by
  intro l
  induction l with
  | nil =>
      intro me acc al hal hacc hlt
      have hme : me ≤ al := by rw [hal]; exact le_max_right a0 me
      have haccle : acc ≤ al := by
        rw [hal, hacc]; exact le_max_right a0 acc
      simp only [maxLoop, List.foldl_nil]
      rw [min_eq_right (le_of_lt (lt_of_le_of_lt hme hlt)),
        min_eq_right (le_of_lt (lt_of_le_of_lt haccle hlt))]
      exact hacc
  | cons mv rest ih =>
      intro me acc al hal hacc hlt
      simp only [maxLoop, List.foldl_cons]
      set e := f (R.applyMove p mv) al b with he
      set vc := v (R.applyMove p mv) with hvc
      have hkey : max al (min b e) = max al (min b vc) :=
        hf (R.applyMove p mv) al hlt
      have hme : me ≤ al := by rw [hal]; exact le_max_right a0 me
      have ha0al : a0 ≤ al := by rw [hal]; exact le_max_left a0 me
      have ha0b : a0 ≤ b := le_trans ha0al (le_of_lt hlt)
      by_cases hpr : b ≤ max al e
      · rw [if_pos hpr]
        have heb : b ≤ e := by
          rcases le_total al e with h | h
          · rwa [max_eq_right h] at hpr
          · rw [max_eq_left h] at hpr
            exact absurd hpr (not_le.mpr hlt)
        have hvb : b ≤ vc := by
          by_contra hc
          push_neg at hc
          rw [min_eq_left heb, max_eq_right (le_of_lt hlt),
            min_eq_right (le_of_lt hc)] at hkey
          exact absurd hkey.symm (ne_of_lt (max_lt hlt hc))
        have hfold : b ≤ rest.foldl
            (fun w mv => max w (v (R.applyMove p mv))) (max acc vc) :=
          le_trans (le_trans hvb (le_max_right acc vc))
            (foldl_max_le (fun mv => v (R.applyMove p mv)) rest (max acc vc))
        rw [max_eq_right (le_trans hme (le_trans (le_of_lt hlt) heb)),
          min_eq_left heb, min_eq_left hfold, max_eq_right ha0b]
      · rw [if_neg hpr]
        have hae : max al e < b := not_le.mp hpr
        have heb : e < b := lt_of_le_of_lt (le_max_right al e) hae
        have hvcb : vc < b := by
          by_contra hc
          push_neg at hc
          rw [min_eq_right (le_of_lt heb), min_eq_left hc,
            max_eq_right (le_of_lt hlt)] at hkey
          exact absurd hkey (ne_of_lt hae)
        have hkey' : max al e = max al vc := by
          rwa [min_eq_right (le_of_lt heb), min_eq_right (le_of_lt hvcb)]
            at hkey
        apply ih (max me e) (max acc vc) (max al e) ?_ ?_ hae
        · rw [hal, max_assoc]
        · rw [← max_assoc, ← hal, hkey', hal, hacc, max_assoc]

/-- Dual invariant for the minimizing loop: the running beta of the loop
is min of the entry beta and the running extremum, and the accumulators
agree under min with the entry beta. -/
theorem minLoop_clamp (f : Pos → Score → Score → Score) (v : Pos → Score)
    (p : Pos) (a b0 : Score)
    (hf : ∀ q y, a < y → max a (min y (f q a y)) = max a (min y (v q))) :
    ∀ (l : List Move) (me acc bl : Score),
      bl = min b0 me → min b0 me = min b0 acc → a < bl →
      max a (min b0 (minLoop R f p l me a bl)) =
        max a (min b0
          (l.foldl (fun w mv => min w (v (R.applyMove p mv))) acc)) := by
  intro l
  induction l with
  | nil =>
      intro me acc bl hbl hacc hlt
      simp only [minLoop, List.foldl_nil]
      rw [hacc]
  | cons mv rest ih =>
      intro me acc bl hbl hacc hlt
      simp only [minLoop, List.foldl_cons]
      set e := f (R.applyMove p mv) a bl with he
      set vc := v (R.applyMove p mv) with hvc
      have hkey : max a (min bl e) = max a (min bl vc) :=
        hf (R.applyMove p mv) bl hlt
      have hblme : bl ≤ me := by rw [hbl]; exact min_le_right b0 me
      have hblb0 : bl ≤ b0 := by rw [hbl]; exact min_le_left b0 me
      by_cases hpr : min bl e ≤ a
      · rw [if_pos hpr]
        have hea : e ≤ a := by
          rcases le_total bl e with h | h
          · rw [min_eq_left h] at hpr
            exact absurd hpr (not_le.mpr hlt)
          · rwa [min_eq_right h] at hpr
        have hva : vc ≤ a := by
          by_contra hc
          push_neg at hc
          rw [min_eq_right (le_of_lt (lt_of_le_of_lt hea hlt)),
            max_eq_left hea] at hkey
          exact absurd hkey (ne_of_lt (lt_max_of_lt_right
            (lt_min hlt hc)))
        have hfold : rest.foldl
            (fun w mv => min w (v (R.applyMove p mv))) (min acc vc) ≤ a :=
          le_trans
            (foldl_min_le (fun mv => v (R.applyMove p mv)) rest (min acc vc))
            (le_trans (min_le_right acc vc) hva)
        have halb0 : a < b0 := lt_of_lt_of_le hlt hblb0
        rw [min_eq_right (le_trans hea (le_trans (le_of_lt hlt) hblme)),
          min_eq_right (le_of_lt (lt_of_le_of_lt hea halb0)),
          max_eq_left hea, min_eq_right (le_of_lt (lt_of_le_of_lt hfold
            halb0)), max_eq_left hfold]
      · rw [if_neg hpr]
        have hae : a < min bl e := not_le.mp hpr
        have hea : a < e := lt_of_lt_of_le hae (min_le_right bl e)
        have hvca : a < vc := by
          by_contra hc
          push_neg at hc
          rw [max_eq_right (le_of_lt hae),
            min_eq_right (le_of_lt (lt_of_le_of_lt hc hlt)),
            max_eq_left hc] at hkey
          exact absurd hkey (ne_of_gt hae)
        have hkey' : min bl e = min bl vc := by
          rw [max_eq_right (le_of_lt hae),
            max_eq_right (le_of_lt (lt_min hlt hvca))] at hkey
          exact hkey
        apply ih (min me e) (min acc vc) (min bl e) ?_ ?_ hae
        · rw [hbl, min_assoc]
        · rw [← min_assoc, ← hbl, hkey', hbl, hacc, min_assoc]

/-- Helper: clamped to its window, the alpha-beta search agrees with the
unpruned minimax value, for every window with alpha < beta. -/
theorem minimax_clamp :
    ∀ (d : Nat) (p : Pos) (a b : Score) (m : Bool), a < b →
      max a (min b (minimax R d p a b m)) =
        max a (min b (fullMinimax R d p m)) := by
  intro d
  induction d with
  | zero => intro p a b m _; rfl
  | succ d ih =>
      intro p a b m hab
      by_cases hg : isGameOver R p = true
      · simp only [minimax, fullMinimax, if_pos hg]
      · cases m
        · simp only [minimax, fullMinimax, if_neg hg, Bool.false_eq_true,
            if_false]
          exact minLoop_clamp R (fun q x y => minimax R d q x y true)
            (fun q => fullMinimax R d q true) p a b
            (fun q y hy => ih q a y true hy)
            (R.legalMoves p) Score.posInf Score.posInf b
            (min_eq_left le_top).symm rfl hab
        · simp only [minimax, fullMinimax, if_neg hg, if_true]
          exact maxLoop_clamp R (fun q x y => minimax R d q x y false)
            (fun q => fullMinimax R d q false) p a b
            (fun q x hx => ih q x b false hx)
            (R.legalMoves p) Score.negInf Score.negInf a
            (max_eq_left bot_le).symm rfl hab

/-- Helper: from the full window the clamp is the identity, so the
pruned search equals the unpruned minimax value. -/
theorem minimax_full_window (d : Nat) (p : Pos) (m : Bool) :
    minimax R d p Score.negInf Score.posInf m = fullMinimax R d p m := by
  have h := minimax_clamp R d p Score.negInf Score.posInf m (by decide)
  rwa [Score.min_posInf, Score.min_posInf, Score.max_negInf,
    Score.max_negInf] at h

/-- C1: from the full window, for every depth and either flag, alpha-beta
pruning never changes the returned value: minimax with pruning equals the
unpruned full minimax of the same game tree. -/
theorem alphabeta_equals_full_minimax (d : Nat) (p : Pos) (m : Bool) :
    minimax R d p Score.negInf Score.posInf m = fullMinimax R d p m :=
  minimax_full_window R d p m

end AlphaBeta

/-- Written from the words of the claim for C2: a score "from the
perspective of" a given side.  The evaluation of src/Chess.py counts
pieces of colour true (White) negatively, so raw scores are already from
the perspective of colour false (Black) and are negated for White. -/
def perspValue (side : Bool) (s : Score) : Score :=
  if side then Score.neg s else s

/-- Counterexample to C2 as stated: at r0 of Rtoy the side to move is
White (true), the driver returns mb although the root value of ma seen
from the perspective of the side to move strictly exceeds that of the
returned move mb — the driver maximizes the fixed Black-favouring
evaluation no matter whose turn it is. -/
theorem get_ai_move_best_for_side_cex :
    Rtoy.sideToMove TPos.r0 = true ∧
      get_ai_move Rtoy TPos.r0 1 = some TMove.mb ∧
      TMove.ma ∈ Rtoy.legalMoves TPos.r0 ∧
      rootValue Rtoy TPos.r0 1 TMove.ma = Score.val (-10) ∧
      rootValue Rtoy TPos.r0 1 TMove.mb = Score.val 10 ∧
      perspValue (Rtoy.sideToMove TPos.r0)
          (rootValue Rtoy TPos.r0 1 TMove.mb) <
        perspValue (Rtoy.sideToMove TPos.r0)
          (rootValue Rtoy TPos.r0 1 TMove.ma) := by
  decide

/-- C2 (amended): on a position with a legal move, at depth at least 1,
get_ai_move returns a legal move whose depth-d minimax value under the
fixed maximizing convention (the perspective the evaluation scores
positively, not necessarily the side to move) is greatest among all legal
moves. -/
theorem get_ai_move_best_reference (R : RulesEngine Pos Move)
    (Hne : ∀ q, isGameOver R q = false → R.legalMoves q ≠ [])
    (p : Pos) (hne : R.legalMoves p ≠ []) (d : Nat) (hd : 1 ≤ d) :
    ∃ mv, get_ai_move R p d = some mv ∧ mv ∈ R.legalMoves p ∧
      ∀ mv' ∈ R.legalMoves p,
        fullMinimax R (d - 1) (R.applyMove p mv') false ≤
          fullMinimax R (d - 1) (R.applyMove p mv) false := by
  obtain ⟨i, heq, hmax, _⟩ := get_ai_move_argmax R Hne p hne d
  have key : ∀ mv, rootValue R p d mv =
      fullMinimax R (d - 1) (R.applyMove p mv) false := fun mv =>
    minimax_full_window R (d - 1) (R.applyMove p mv) false
  refine ⟨_, heq, List.get_mem _ _ _, ?_⟩
  intro mv' hmv'
  obtain ⟨j, hj⟩ := List.mem_iff_get.mp hmv'
  rw [← hj, ← key, ← key]
  exact hmax j

/-- Witness for C2 (amended) on the concrete engine Rtoy at r0, depth 1. -/
theorem get_ai_move_best_reference_witness :
    ∃ mv, get_ai_move Rtoy TPos.r0 1 = some mv ∧
      mv ∈ Rtoy.legalMoves TPos.r0 ∧
      ∀ mv' ∈ Rtoy.legalMoves TPos.r0,
        fullMinimax Rtoy 0 (Rtoy.applyMove TPos.r0 mv') false ≤
          fullMinimax Rtoy 0 (Rtoy.applyMove TPos.r0 mv) false :=
  get_ai_move_best_reference Rtoy (by decide) TPos.r0 (by decide) 1
    (by decide)

section Stateful

variable (R : RulesEngine Pos Move)

/-- Undoing a push restores the board exactly. -/
theorem popB_pushB (s : BState Pos) (mv : Move) :
    popB (pushB R s mv) = s := rfl

/-- The maximizing loop restores the board it was given and emits a
strictly nested trace, provided the child search does. -/
theorem stMaxLoop_state_nested
    (f : BState Pos → Score → Score → Score × BState Pos × List (Op Move))
    (hstate : ∀ s x y, (f s x y).2.1 = s)
    (htr : ∀ s x y, Nested (f s x y).2.2) :
    ∀ (l : List Move) (s : BState Pos) (me a b : Score),
      (stMaxLoop R f l s me a b).2.1 = s ∧
        Nested (stMaxLoop R f l s me a b).2.2 := by
  intro l
  induction l with
  | nil => intro s me a b; exact ⟨rfl, Nested.nil⟩
  | cons mv rest ih =>
      intro s me a b
      simp only [stMaxLoop, hstate (pushB R s mv) a b, popB_pushB]
      split
      · exact ⟨by simp, Nested.node mv (htr (pushB R s mv) a b) Nested.nil⟩
      · obtain ⟨h1, h2⟩ := ih s (max me (f (pushB R s mv) a b).1)
          (max a (f (pushB R s mv) a b).1) b
        exact ⟨h1, Nested.node mv (htr (pushB R s mv) a b) h2⟩

/-- The minimizing loop restores the board it was given and emits a
strictly nested trace, provided the child search does. -/
theorem stMinLoop_state_nested
    (f : BState Pos → Score → Score → Score × BState Pos × List (Op Move))
    (hstate : ∀ s x y, (f s x y).2.1 = s)
    (htr : ∀ s x y, Nested (f s x y).2.2) :
    ∀ (l : List Move) (s : BState Pos) (me a b : Score),
      (stMinLoop R f l s me a b).2.1 = s ∧
        Nested (stMinLoop R f l s me a b).2.2 := by
  intro l
  induction l with
  | nil => intro s me a b; exact ⟨rfl, Nested.nil⟩
  | cons mv rest ih =>
      intro s me a b
      simp only [stMinLoop, hstate (pushB R s mv) a b, popB_pushB]
      split
      · exact ⟨by simp, Nested.node mv (htr (pushB R s mv) a b) Nested.nil⟩
      · obtain ⟨h1, h2⟩ := ih s (min me (f (pushB R s mv) a b).1) a
          (min b (f (pushB R s mv) a b).1)
        exact ⟨h1, Nested.node mv (htr (pushB R s mv) a b) h2⟩

/-- Helper for C6: the search restores the board it was given on every
path, and its push/pop trace is strictly nested. -/
theorem stMinimax_state_nested :
    ∀ (d : Nat) (s : BState Pos) (a b : Score) (m : Bool),
      (stMinimax R d s a b m).2.1 = s ∧
        Nested (stMinimax R d s a b m).2.2 := by
  intro d
  induction d with
  | zero => intro s a b m; exact ⟨rfl, Nested.nil⟩
  | succ d ih =>
      intro s a b m
      by_cases hg : isGameOver R s.pos = true
      · simp only [stMinimax, if_pos hg]
        exact ⟨by simp, Nested.nil⟩
      · cases m
        · simp only [stMinimax, if_neg hg, Bool.false_eq_true, if_false]
          exact stMinLoop_state_nested R _
            (fun s1 x y => (ih s1 x y true).1)
            (fun s1 x y => (ih s1 x y true).2) (R.legalMoves s.pos) s
            Score.posInf a b
        · simp only [stMinimax, if_neg hg, if_true]
          exact stMaxLoop_state_nested R _
            (fun s1 x y => (ih s1 x y false).1)
            (fun s1 x y => (ih s1 x y false).2) (R.legalMoves s.pos) s
            Score.negInf a b

/-- The root selection loop restores the board it was given and emits a
strictly nested trace. -/
theorem stSelLoop_state_nested
    (f : BState Pos → Score × BState Pos × List (Op Move))
    (hstate : ∀ s, (f s).2.1 = s) (htr : ∀ s, Nested (f s).2.2) :
    ∀ (l : List Move) (s : BState Pos) (bm : Option Move) (bv : Score),
      (stSelLoop R f l s bm bv).2.1 = s ∧
        Nested (stSelLoop R f l s bm bv).2.2 := by
  intro l
  induction l with
  | nil => intro s bm bv; exact ⟨rfl, Nested.nil⟩
  | cons mv rest ih =>
      intro s bm bv
      simp only [stSelLoop, hstate (pushB R s mv), popB_pushB]
      by_cases hlt : bv < (f (pushB R s mv)).1
      · rw [if_pos hlt]
        obtain ⟨h1, h2⟩ := ih s (some mv) (f (pushB R s mv)).1
        exact ⟨h1, Nested.node mv (htr (pushB R s mv)) h2⟩
      · rw [if_neg hlt]
        obtain ⟨h1, h2⟩ := ih s bm bv
        exact ⟨h1, Nested.node mv (htr (pushB R s mv)) h2⟩

/-- C6: both the search and the root driver leave the board exactly as
given on every execution path — every push is undone by the matching pop
before the next sibling, before any pruning break and before returning —
and the emitted push/pop trace is strictly nested, mirroring recursion
depth. -/
theorem push_pop_strictly_nested (d : Nat) (s : BState Pos)
    (a b : Score) (m : Bool) (dd : Nat) :
    ((stMinimax R d s a b m).2.1 = s ∧
        Nested (stMinimax R d s a b m).2.2) ∧
      ((stGetAiMove R s dd).2.1 = s ∧ Nested (stGetAiMove R s dd).2.2) := by
  refine ⟨stMinimax_state_nested R d s a b m, ?_⟩
  exact stSelLoop_state_nested R _
    (fun s1 => (stMinimax_state_nested R (dd - 1) s1 Score.negInf
      Score.posInf false).1)
    (fun s1 => (stMinimax_state_nested R (dd - 1) s1 Score.negInf
      Score.posInf false).2) (R.legalMoves s.pos) s none Score.negInf

end Stateful

section BaseCase

variable (R : RulesEngine Pos Move)

/-- A non-empty move list makes the maximizing loop push at least once. -/
theorem stMaxLoop_trace_ne_nil
    (f : BState Pos → Score → Score → Score × BState Pos × List (Op Move))
    (mv : Move) (rest : List Move) (s : BState Pos) (me a b : Score) :
    (stMaxLoop R f (mv :: rest) s me a b).2.2 ≠ [] := by
  simp only [stMaxLoop]
  split <;> exact List.cons_ne_nil _ _

/-- A non-empty move list makes the minimizing loop push at least once. -/
theorem stMinLoop_trace_ne_nil
    (f : BState Pos → Score → Score → Score × BState Pos × List (Op Move))
    (mv : Move) (rest : List Move) (s : BState Pos) (me a b : Score) :
    (stMinLoop R f (mv :: rest) s me a b).2.2 ≠ [] := by
  simp only [stMinLoop]
  split <;> exact List.cons_ne_nil _ _

/-- C4: minimax returns evaluate_board without enumerating any move (its
push/pop trace is empty) exactly when the depth is 0 or the position is
checkmate, stalemate or drawn by insufficient material; in every other
case at least one move is enumerated and the result is the running
extremum of the corresponding move loop over the child searches. -/
theorem minimax_base_case
    (Hne : ∀ q, isGameOver R q = false → R.legalMoves q ≠ [])
    (d : Nat) (p : Pos) (st : List Pos) (a b : Score) (m : Bool) :
    ((d = 0 ∨ isGameOver R p = true) →
      minimax R d p a b m = Score.val (evaluate_board R p) ∧
        (stMinimax R d ⟨p, st⟩ a b m).2.2 = []) ∧
      (¬(d = 0 ∨ isGameOver R p = true) →
        (stMinimax R d ⟨p, st⟩ a b m).2.2 ≠ [] ∧
          minimax R d p a b m =
            (if m then
              maxLoop R (fun q x y => minimax R (d - 1) q x y false) p
                (R.legalMoves p) Score.negInf a b
            else
              minLoop R (fun q x y => minimax R (d - 1) q x y true) p
                (R.legalMoves p) Score.posInf a b)) := by
  constructor
  · rintro (h0 | hg)
    · subst h0
      exact ⟨rfl, rfl⟩
    · cases d with
      | zero => exact ⟨rfl, rfl⟩
      | succ d => simp [minimax, stMinimax, hg]
  · intro h
    push_neg at h
    obtain ⟨h0, hg⟩ := h
    obtain ⟨d, rfl⟩ := Nat.exists_eq_succ_of_ne_zero h0
    have hgf : isGameOver R p = false := by
      cases hgo : isGameOver R p
      · rfl
      · exact absurd hgo hg
    have hmv := Hne p hgf
    constructor
    · rcases hl : R.legalMoves p with _ | ⟨mv, rest⟩
      · exact absurd hl hmv
      · cases m
        · simp only [stMinimax, if_neg hg, Bool.false_eq_true, if_false]
          rw [hl]
          exact stMinLoop_trace_ne_nil R _ mv rest ⟨p, st⟩ Score.posInf a b
        · simp only [stMinimax, if_neg hg, if_true]
          rw [hl]
          exact stMaxLoop_trace_ne_nil R _ mv rest ⟨p, st⟩ Score.negInf a b
    · cases m
      · simp only [minimax, if_neg hg, Bool.false_eq_true, if_false,
          Nat.succ_sub_one]
      · simp only [minimax, if_neg hg, if_true, Nat.succ_sub_one]

end BaseCase

/-- Witness for C4 on the concrete engine Rtoy at depth 1, position r0. -/
theorem minimax_base_case_witness :
    ((1 = 0 ∨ isGameOver Rtoy TPos.r0 = true) →
      minimax Rtoy 1 TPos.r0 Score.negInf Score.posInf true =
          Score.val (evaluate_board Rtoy TPos.r0) ∧
        (stMinimax Rtoy 1 ⟨TPos.r0, []⟩ Score.negInf Score.posInf
          true).2.2 = []) ∧
      (¬(1 = 0 ∨ isGameOver Rtoy TPos.r0 = true) →
        (stMinimax Rtoy 1 ⟨TPos.r0, []⟩ Score.negInf Score.posInf
            true).2.2 ≠ [] ∧
          minimax Rtoy 1 TPos.r0 Score.negInf Score.posInf true =
            (if true then
              maxLoop Rtoy (fun q x y => minimax Rtoy (1 - 1) q x y false)
                TPos.r0 (Rtoy.legalMoves TPos.r0) Score.negInf Score.negInf
                Score.posInf
            else
              minLoop Rtoy (fun q x y => minimax Rtoy (1 - 1) q x y true)
                TPos.r0 (Rtoy.legalMoves TPos.r0) Score.posInf Score.negInf
                Score.posInf)) :=
  minimax_base_case Rtoy (by decide) 1 TPos.r0 [] Score.negInf Score.posInf
    true

end ChessPy
